import Mathlib

/-!
Verification of the multi-armed bandit simulator (`src/main.py`).

The Python program is embedded shallowly:

* machine floats become exact rationals `ℚ` (and reals `ℝ` where the code
  computes `sqrt`/`log`, in the UCB policy);
* the process-wide numpy random generator becomes explicit inputs: each
  operation that consumes randomness receives the drawn values as arguments;
* numpy exceptions (`ValueError` on invalid sizes / empty argmax,
  `IndexError` on out-of-range indices) become `Except BanditError`,
  using the labels of the design's error taxonomy.
-/

/-- Error taxonomy of the design. `InvalidConfiguration` stands for the
`ValueError` numpy raises in `BernoulliBandit.__init__` when `K ≤ 0`
(negative dimension, or argmax of an empty array when `K = 0`);
`InvalidArm` stands for the `IndexError` numpy raises in
`BernoulliBandit.step` when the arm index is out of range. -/
inductive BanditError where
  | InvalidConfiguration
  | InvalidArm
deriving DecidableEq, Repr

/-- State of `np.argmax` after scanning a prefix: `i` is the index of the
next element to scan, `bi` the index of the running maximum, `bv` its value.
`np.argmax` keeps the first occurrence of the maximum, so the running best
is replaced only on a strictly larger value. -/
def argmaxAux [LinearOrder α] : ℕ → ℕ → α → List α → ℕ
  | _, bi, _, [] => bi
  | i, bi, bv, v :: rest =>
    if bv < v then argmaxAux (i + 1) i v rest else argmaxAux (i + 1) bi bv rest

/-- Embedding of `np.argmax`: index of the first occurrence of the maximum
of a list (`np.argmax` raises on an empty array; on `[]` we return the junk
value `0`, and every use below is guarded by nonemptiness). -/
def argmaxIdx [LinearOrder α] : List α → ℕ
  | [] => 0
  | v :: rest => argmaxAux 1 0 v rest

/-- Embedding of the `BernoulliBandit` object of `src/main.py` after
construction: `probs` are the K true success probabilities,
`best_idx = np.argmax(probs)`, `best_prob = probs[best_idx]`, `K` the arm
count. -/
structure BernoulliBandit where
  probs : List ℚ
  best_idx : ℕ
  best_prob : ℚ
  K : ℕ
deriving DecidableEq, Repr

/-- Embedding of `BernoulliBandit.__init__(K)`. The Python constructor takes
an int `K` and draws `probs = np.random.uniform(size=K)`; the draws are
passed in as the stream `u`. For `K ≤ 0` numpy raises `ValueError`
(negative dimensions, or `np.argmax` of the empty array when `K = 0`),
modelled as `InvalidConfiguration`. -/
def BernoulliBandit.init (K : ℤ) (u : ℕ → ℚ) : Except BanditError BernoulliBandit :=
  if K ≤ 0 then .error .InvalidConfiguration
  else
    let probs := (List.range K.toNat).map u
    .ok { probs := probs
          best_idx := argmaxIdx probs
          best_prob := probs.getD (argmaxIdx probs) 0
          K := K.toNat }

/-- Embedding of numpy 1-d integer indexing `a[k]` on a list of length `L`:
indices in `[0, L)` read directly, indices in `[-L, 0)` wrap to `L + k`
(Python negative indexing), anything else is an `IndexError` (`none`). -/
def npIndex (l : List ℚ) (k : ℤ) : Option ℚ :=
  if 0 ≤ k then l.get? k.toNat
  else if 0 ≤ (l.length : ℤ) + k then l.get? ((l.length : ℤ) + k).toNat
  else none

/-- Embedding of `BernoulliBandit.step(k)`: draw `ran = np.random.rand()`
(passed in as the argument `ran`) and return reward `1` if `ran < probs[k]`
else `0`; an out-of-range index is numpy's `IndexError`, modelled as
`InvalidArm`. -/
def BernoulliBandit.step (b : BernoulliBandit) (k : ℤ) (ran : ℚ) : Except BanditError ℕ :=
  match npIndex b.probs k with
  | none => .error .InvalidArm
  | some p => .ok (if ran < p then 1 else 0)

/-- Reward of `BernoulliBandit.step(k)` for the in-range indices the
policies produce (every policy returns `k ∈ [0, K)`); agrees with
`BernoulliBandit.step` there (`BernoulliBandit.step_eq_ok`). -/
def BernoulliBandit.stepReward (b : BernoulliBandit) (k : ℕ) (ran : ℚ) : ℕ :=
  if ran < b.probs.getD k 0 then 1 else 0

/- ### Small list helpers -/

/-- Embedding of a `Solver` object's state, the fields of `Solver.__init__`
together with the policy object's own fields (Python merges them through
inheritance; here the policy-specific fields live in the parameter `σ`):
`counts` are the per-arm pull counts (`np.zeros(K)`), `regret` the running
cumulative regret, `actions` the chosen arms, `regrets` the per-round
cumulative-regret snapshots. -/
structure SolverState (σ : Type) where
  bandit : BernoulliBandit
  counts : List ℕ
  regret : ℚ
  actions : List ℕ
  regrets : List ℚ
  policy : σ

/-- Embedding of `Solver.__init__(bandit)` (together with the policy
subclass constructor providing the initial policy fields `p`). -/
def Solver.mkInit {σ : Type} (b : BernoulliBandit) (p : σ) : SolverState σ :=
  { bandit := b
    counts := List.replicate b.K 0
    regret := 0
    actions := []
    regrets := []
    policy := p }

/-- Embedding of `Solver.update_regret(k)`:
`self.regret += self.bandit.best_prob - self.bandit.probs[k]` followed by
`self.regrets.append(self.regret)`. -/
def Solver.update_regret {σ : Type} (s : SolverState σ) (k : ℕ) : SolverState σ :=
  let r := s.regret + (s.bandit.best_prob - s.bandit.probs.getD k 0)
  { s with regret := r, regrets := s.regrets ++ [r] }

/-- One iteration of the loop body of `Solver.run`:
`k = self.run_one_step(); self.counts[k] += 1; self.actions.append(k);
self.update_regret(k)`. The policy's `run_one_step` is the parameter
`stepfn`; it receives the bandit, the solver's current `counts` (which
Python shares through `self`), the policy fields, and the random draws `r`
this round consumes, and returns the chosen arm and the new policy
fields. -/
def Solver.runOneRound {σ ρ : Type}
    (stepfn : BernoulliBandit → List ℕ → σ → ρ → ℕ × σ)
    (s : SolverState σ) (r : ρ) : SolverState σ :=
  let res := stepfn s.bandit s.counts s.policy r
  let k := res.1
  let s1 := { s with
    policy := res.2
    counts := s.counts.set k (s.counts.getD k 0 + 1)
    actions := s.actions ++ [k] }
  Solver.update_regret s1 k

/-- Embedding of `Solver.run(num_steps)`: `num_steps` iterations of the
loop body, one per entry of the list `rnds` of per-round random draws
(`num_steps = rnds.length`). -/
def Solver.run {σ ρ : Type}
    (stepfn : BernoulliBandit → List ℕ → σ → ρ → ℕ × σ)
    (s : SolverState σ) (rnds : List ρ) : SolverState σ :=
  rnds.foldl (Solver.runOneRound stepfn) s

/- ### The shared incremental update rule -/

/-- Embedding of the estimate-update line shared verbatim by all three
policies:
`self.estimates[k] += 1. / (self.counts[k] + 1) * (r - self.estimates[k])`. -/
def updateEstimate (est : List ℚ) (counts : List ℕ) (k : ℕ) (r : ℚ) : List ℚ :=
  est.set k (est.getD k 0 + 1 / ((counts.getD k 0 : ℚ) + 1) * (r - est.getD k 0))

/-- One pull under the shared rule: update the estimate of the pulled arm
`s.1` with reward `s.2` (the shared line above), then increment that arm's
pull count as `Solver.run` does (`self.counts[k] += 1`). -/
def sharedStep (acc : List ℚ × List ℕ) (s : ℕ × ℚ) : List ℚ × List ℕ :=
  (updateEstimate acc.1 acc.2 s.1 s.2, acc.2.set s.1 (acc.2.getD s.1 0 + 1))

/-- The estimates and counts produced by a sequence of pulls
`steps = [(arm, reward), ...]` under the shared incremental update rule,
starting from the prior `init` on every arm (`[init_prob] * K`) and zero
counts (`np.zeros(K)`). -/
def sharedUpdateRun (K : ℕ) (init : ℚ) (steps : List (ℕ × ℚ)) : List ℚ × List ℕ :=
  steps.foldl sharedStep (List.replicate K init, List.replicate K 0)

/- ### The three policies -/

/-- Random draws consumed by one `run_one_step` of the two epsilon-greedy
policies: `e` is the `np.random.random()` draw compared against epsilon,
`j` the result of `np.random.randint(0, K)` (consumed only on the
exploration branch), `u` the `np.random.rand()` draw inside
`bandit.step`. -/
structure SelectRand where
  e : ℚ
  j : ℕ
  u : ℚ

/-- Policy fields of `EpsilonGreedy.__init__`: `epsilon` and the initial
estimates `np.array([init_prob] * K)`. -/
structure EpsilonGreedy where
  epsilon : ℚ
  estimates : List ℚ

/-- Embedding of `EpsilonGreedy.__init__(bandit, epsilon, init_prob)`. -/
def EpsilonGreedy.mkInit (b : BernoulliBandit) (epsilon init_prob : ℚ) : EpsilonGreedy :=
  { epsilon := epsilon, estimates := List.replicate b.K init_prob }

/-- Embedding of `EpsilonGreedy.run_one_step`: with the draw `e` below
`epsilon` pick the random arm `j`, otherwise `np.argmax(self.estimates)`;
pull the bandit and apply the shared estimate update with the solver's
current `counts`. -/
def EpsilonGreedy.run_one_step (b : BernoulliBandit) (counts : List ℕ)
    (p : EpsilonGreedy) (rnd : SelectRand) : ℕ × EpsilonGreedy :=
  let k := if rnd.e < p.epsilon then rnd.j else argmaxIdx p.estimates
  let r := b.stepReward k rnd.u
  (k, { p with estimates := updateEstimate p.estimates counts k (r : ℚ) })

/-- Policy fields of `DecayingEpsilonGreedy.__init__`: the estimates and
the policy's own round counter `total_count`. -/
structure DecayingEpsilonGreedy where
  estimates : List ℚ
  total_count : ℕ

/-- Embedding of `DecayingEpsilonGreedy.__init__(bandit, init_prob)`. -/
def DecayingEpsilonGreedy.mkInit (b : BernoulliBandit) (init_prob : ℚ) : DecayingEpsilonGreedy :=
  { estimates := List.replicate b.K init_prob, total_count := 0 }

/-- The decayed exploration threshold `0.01 - 1 / self.total_count`
compared against the uniform draw in `DecayingEpsilonGreedy.run_one_step`
(the float literal `0.01` is the exact rational `1/100` in this
embedding). -/
def DecayingEpsilonGreedy.eps (t : ℕ) : ℚ := 1 / 100 - 1 / (t : ℚ)

/-- Embedding of `DecayingEpsilonGreedy.run_one_step`: increment
`total_count` first, explore when the draw is below `0.01 - 1/total_count`,
otherwise exploit; then the shared estimate update. -/
def DecayingEpsilonGreedy.run_one_step (b : BernoulliBandit) (counts : List ℕ)
    (p : DecayingEpsilonGreedy) (rnd : SelectRand) : ℕ × DecayingEpsilonGreedy :=
  let t := p.total_count + 1
  let k := if rnd.e < DecayingEpsilonGreedy.eps t then rnd.j else argmaxIdx p.estimates
  let r := b.stepReward k rnd.u
  (k, { estimates := updateEstimate p.estimates counts k (r : ℚ), total_count := t })

/-- Policy fields of `UCB.__init__`: the round counter `total_count`, the
estimates, and the exploration coefficient `coef`. -/
structure UCB where
  total_count : ℕ
  estimates : List ℚ
  coef : ℝ

/-- Embedding of `UCB.__init__(bandit, coef, init_prob)`. -/
def UCB.mkInit (b : BernoulliBandit) (coef : ℝ) (init_prob : ℚ) : UCB :=
  { total_count := 0, estimates := List.replicate b.K init_prob, coef := coef }

/-- The per-arm upper-confidence score of line 105 of `src/main.py`:
`estimate + coef * np.sqrt(np.log(total) / (2 * (count + 1)))`. -/
noncomputable def UCB.score (coef : ℝ) (total : ℕ) (est : ℝ) (c : ℕ) : ℝ :=
  est + coef * Real.sqrt (Real.log (total : ℝ) / (2 * ((c : ℝ) + 1)))

/-- The vectorised score array
`self.estimates + self.coef * np.sqrt(np.log(self.total_count) / (2 * (self.counts + 1)))`. -/
noncomputable def UCB.ucbScores (coef : ℝ) (total : ℕ) (est : List ℚ) (counts : List ℕ) : List ℝ :=
  (List.range est.length).map fun i => UCB.score coef total ((est.getD i 0 : ℚ) : ℝ) (counts.getD i 0)

/-- Embedding of `UCB.run_one_step`: increment `total_count`, compute the
score array, pick `np.argmax` of it, pull the bandit, and apply the shared
estimate update. -/
noncomputable def UCB.run_one_step (b : BernoulliBandit) (counts : List ℕ)
    (p : UCB) (rnd : ℚ) : ℕ × UCB :=
  let t := p.total_count + 1
  let ucb := UCB.ucbScores p.coef t p.estimates counts
  let k := argmaxIdx ucb
  let r := b.stepReward k rnd
  (k, { p with total_count := t, estimates := updateEstimate p.estimates counts k (r : ℚ) })

/-- Sum of the true probabilities of the pulled arms, the quantity the
cumulative regret is measured against. -/
def probSum (b : BernoulliBandit) (acts : List ℕ) : ℚ :=
  (acts.map fun a => b.probs.getD a 0).sum

/- ### Invariants of the learning loop -/

/-- Run-history invariant of a solver state: counts have length K and sum
to the number of rounds, one regret snapshot per round, the running regret
and each snapshot satisfy the oracle regret accounting, and every recorded
action is a valid arm. -/
def SolverInv {σ : Type} (b : BernoulliBandit) (s : SolverState σ) : Prop :=
  s.bandit = b ∧
  s.counts.length = b.K ∧
  s.counts.sum = s.actions.length ∧
  s.regrets.length = s.actions.length ∧
  s.regret = b.best_prob * s.actions.length - probSum b s.actions ∧
  (∀ i, i < s.actions.length →
    s.regrets.getD i 0 = b.best_prob * (i + 1) - probSum b (s.actions.take (i + 1))) ∧
  (∀ a ∈ s.actions, a < b.K)

/-- Rewards observed for arm `a` in a pull sequence. -/
def pullsOf (a : ℕ) (steps : List (ℕ × ℚ)) : List ℚ :=
  (steps.filter fun s => s.1 == a).map Prod.snd

/-- A concrete two-arm bandit used in counterexamples and witnesses. -/
def bTwo : BernoulliBandit :=
  { probs := [1/3, 2/3], best_idx := 1, best_prob := 2/3, K := 2 }

/-- A concrete single-arm bandit used in witnesses. -/
def bOne : BernoulliBandit :=
  { probs := [1/2], best_idx := 0, best_prob := 1/2, K := 1 }

/- ### Witnesses: the claim theorems instantiated at concrete inputs -/

/- ### Theorems -/

theorem getD_eq_getD_of_lt (l : List α) (d d' : α) (i : ℕ) (h : i < l.length) :
    l.getD i d = l.getD i d' := by
  simp [List.getD_eq_getElem?_getD, List.getElem?_eq_getElem h]

theorem getD_mem_of_lt (l : List α) (d : α) (i : ℕ) (h : i < l.length) :
    l.getD i d ∈ l := by
  rw [List.getD_eq_getElem?_getD, List.getElem?_eq_getElem h]
  exact List.getElem_mem h

theorem getD_set_self (l : List α) (i : ℕ) (h : i < l.length) (v d : α) :
    (l.set i v).getD i d = v := by
  simp [List.getD_eq_getElem?_getD, List.getElem?_set_self h]

theorem getD_set_ne (l : List α) (i j : ℕ) (h : i ≠ j) (v d : α) :
    (l.set i v).getD j d = l.getD j d := by
  simp [List.getD_eq_getElem?_getD, List.getElem?_set_ne h]

theorem getD_replicate_of_lt (n : ℕ) (x d : α) (i : ℕ) (h : i < n) :
    (List.replicate n x).getD i d = x := by
  simp [List.getD_eq_getElem?_getD, List.getElem?_replicate_of_lt h]

theorem getD_append_left (l l' : List α) (i : ℕ) (h : i < l.length) (d : α) :
    (l ++ l').getD i d = l.getD i d := by
  simp [List.getD_eq_getElem?_getD, List.getElem?_append_left h]

theorem getD_concat_length (l : List α) (x d : α) :
    (l ++ [x]).getD l.length d = x := by
  simp [List.getD_eq_getElem?_getD, List.getElem?_append_right (Nat.le_refl _)]

theorem sum_set_getD_add_one :
    ∀ (l : List ℕ) (k : ℕ), k < l.length →
      (l.set k (l.getD k 0 + 1)).sum = l.sum + 1 := by
  intro l
  induction l with
  | nil => intro k hk; simp at hk
  | cons x xs ih =>
    intro k hk
    cases k with
    | zero => simp [List.getD_cons_zero]; omega
    | succ k =>
      simp only [List.set, List.getD_cons_succ, List.sum_cons]
      rw [ih k (by simpa using hk)]
      omega

/- ### Properties of `argmaxIdx` (behaviour of `np.argmax`) -/

theorem argmaxAux_spec [LinearOrder α] (d : α) (l : List α) :
    ∀ i bi bv, bi < i →
      (argmaxAux i bi bv l = bi ∧ ∀ m, m < l.length → l.getD m d ≤ bv) ∨
      (∃ j, j < l.length ∧ argmaxAux i bi bv l = i + j ∧ bv < l.getD j d ∧
        (∀ m, m < l.length → l.getD m d ≤ l.getD j d) ∧
        (∀ m, m < j → l.getD m d < l.getD j d)) := by
  induction l with
  | nil =>
    intro i bi bv _
    left
    exact ⟨rfl, by intro m hm; simp at hm⟩
  | cons v rest ih =>
    intro i bi bv hbi
    simp only [argmaxAux]
    by_cases hv : bv < v
    · rw [if_pos hv]
      rcases ih (i + 1) i v (Nat.lt_succ_self i) with ⟨heq, hle⟩ | ⟨j, hj, heq, hlt, hmax, hfirst⟩
      · right
        refine ⟨0, by simp, by simpa using heq, by simpa using hv, ?_, ?_⟩
        · intro m hm
          cases m with
          | zero => simp
          | succ m =>
            simp only [List.getD_cons_succ, List.getD_cons_zero]
            exact hle m (by simpa using hm)
        · intro m hm; omega
      · right
        refine ⟨j + 1, by simpa using hj, by rw [heq]; omega, ?_, ?_, ?_⟩
        · simpa using lt_trans hv hlt
        · intro m hm
          cases m with
          | zero =>
            simp only [List.getD_cons_zero, List.getD_cons_succ]
            exact le_of_lt hlt
          | succ m =>
            simp only [List.getD_cons_succ]
            exact hmax m (by simpa using hm)
        · intro m hm
          cases m with
          | zero =>
            simp only [List.getD_cons_zero, List.getD_cons_succ]
            exact hlt
          | succ m =>
            simp only [List.getD_cons_succ]
            exact hfirst m (by omega)
    · rw [if_neg hv]
      have hvle : v ≤ bv := le_of_not_lt hv
      rcases ih (i + 1) bi bv (by omega) with ⟨heq, hle⟩ | ⟨j, hj, heq, hlt, hmax, hfirst⟩
      · left
        refine ⟨heq, ?_⟩
        intro m hm
        cases m with
        | zero => simpa using hvle
        | succ m =>
          simp only [List.getD_cons_succ]
          exact hle m (by simpa using hm)
      · right
        refine ⟨j + 1, by simpa using hj, by rw [heq]; omega, ?_, ?_, ?_⟩
        · simpa using hlt
        · intro m hm
          cases m with
          | zero =>
            simp only [List.getD_cons_zero, List.getD_cons_succ]
            exact le_of_lt (lt_of_le_of_lt hvle hlt)
          | succ m =>
            simp only [List.getD_cons_succ]
            exact hmax m (by simpa using hm)
        · intro m hm
          cases m with
          | zero =>
            simp only [List.getD_cons_zero, List.getD_cons_succ]
            exact lt_of_le_of_lt hvle hlt
          | succ m =>
            simp only [List.getD_cons_succ]
            exact hfirst m (by omega)

theorem argmaxIdx_lt_length [LinearOrder α] (l : List α) (h : l ≠ []) :
    argmaxIdx l < l.length := by
  match l with
  | [] => exact absurd rfl h
  | v :: rest =>
    simp only [argmaxIdx]
    rcases argmaxAux_spec v rest 1 0 v (Nat.lt_succ_self 0) with ⟨heq, _⟩ | ⟨j, hj, heq, _⟩
    · rw [heq]; simp
    · rw [heq]; simp only [List.length_cons]; omega

theorem getD_le_getD_argmaxIdx [LinearOrder α] (d : α) (l : List α) (j : ℕ)
    (hj : j < l.length) : l.getD j d ≤ l.getD (argmaxIdx l) d := by
  match l with
  | [] => simp at hj
  | v :: rest =>
    simp only [argmaxIdx]
    rcases argmaxAux_spec d rest 1 0 v (Nat.lt_succ_self 0) with ⟨heq, hle⟩ | ⟨p, hp, heq, hlt, hmax, _⟩
    · rw [heq]
      cases j with
      | zero => simp
      | succ j =>
        simp only [List.getD_cons_succ, List.getD_cons_zero]
        exact hle j (by simpa using hj)
    · rw [heq]
      have h1p : 1 + p = p + 1 := by omega
      rw [h1p]
      cases j with
      | zero =>
        simp only [List.getD_cons_zero, List.getD_cons_succ]
        exact le_of_lt hlt
      | succ j =>
        simp only [List.getD_cons_succ]
        exact hmax j (by simpa using hj)

theorem getD_lt_getD_argmaxIdx [LinearOrder α] (d : α) (l : List α) (m : ℕ)
    (hm : m < argmaxIdx l) : l.getD m d < l.getD (argmaxIdx l) d := by
  match l with
  | [] => simp [argmaxIdx] at hm
  | v :: rest =>
    simp only [argmaxIdx] at hm ⊢
    rcases argmaxAux_spec d rest 1 0 v (Nat.lt_succ_self 0) with ⟨heq, _⟩ | ⟨p, hp, heq, hlt, _, hfirst⟩
    · rw [heq] at hm; omega
    · rw [heq] at hm ⊢
      have h1p : 1 + p = p + 1 := by omega
      rw [h1p] at hm ⊢
      cases m with
      | zero =>
        simp only [List.getD_cons_zero, List.getD_cons_succ]
        exact hlt
      | succ m =>
        simp only [List.getD_cons_succ]
        exact hfirst m (by omega)

theorem argmaxIdx_of_length_one [LinearOrder α] (l : List α) (h : l.length = 1) :
    argmaxIdx l = 0 := by
  match l with
  | [v] => rfl

/- ### The learning loop (`Solver` of `src/main.py`) -/

theorem probSum_append (b : BernoulliBandit) (l l' : List ℕ) :
    probSum b (l ++ l') = probSum b l + probSum b l' := by
  simp [probSum]

theorem solverInv_mkInit {σ : Type} (b : BernoulliBandit) (p : σ) :
    SolverInv b (Solver.mkInit b p) := by
  refine ⟨rfl, by simp [Solver.mkInit], ?_, by simp [Solver.mkInit], ?_, ?_, ?_⟩
  · simp [Solver.mkInit, List.sum_replicate]
  · simp [Solver.mkInit, probSum]
  · intro i hi; simp [Solver.mkInit] at hi
  · intro a ha; simp [Solver.mkInit] at ha

theorem solverInv_runOneRound {σ ρ : Type} (b : BernoulliBandit)
    (stepfn : BernoulliBandit → List ℕ → σ → ρ → ℕ × σ)
    (s : SolverState σ) (r : ρ) (hs : SolverInv b s)
    (hk : ∀ c p, (stepfn b c p r).1 < b.K) :
    SolverInv b (Solver.runOneRound stepfn s r) := by
  obtain ⟨hband, hclen, hcsum, hrlen, hreg, hregs, hacts⟩ := hs
  subst hband
  set k := (stepfn s.bandit s.counts s.policy r).1 with hkdef
  have hkK : k < s.bandit.K := hk _ _
  have hstep : Solver.runOneRound stepfn s r =
      { bandit := s.bandit
        counts := s.counts.set k (s.counts.getD k 0 + 1)
        regret := s.regret + (s.bandit.best_prob - s.bandit.probs.getD k 0)
        actions := s.actions ++ [k]
        regrets := s.regrets ++ [s.regret + (s.bandit.best_prob - s.bandit.probs.getD k 0)]
        policy := (stepfn s.bandit s.counts s.policy r).2 } := by
    simp [Solver.runOneRound, Solver.update_regret]
  rw [hstep]
  refine ⟨rfl, ?_, ?_, ?_, ?_, ?_, ?_⟩
  · simpa using hclen
  · have h1 : (s.counts.set k (s.counts.getD k 0 + 1)).sum = s.counts.sum + 1 :=
      sum_set_getD_add_one s.counts k (by rw [hclen]; exact hkK)
    dsimp only
    simp only [h1, hcsum, List.length_append, List.length_cons, List.length_nil]
  · dsimp only
    simp [hrlen]
  · dsimp only
    simp only [List.length_append, List.length_cons, List.length_nil,
      probSum_append, hreg]
    have h2 : probSum s.bandit [k] = s.bandit.probs.getD k 0 := by simp [probSum]
    rw [h2]
    push_cast
    ring
  · intro i hi
    dsimp only at hi ⊢
    simp only [List.length_append, List.length_cons, List.length_nil] at hi
    by_cases hil : i < s.actions.length
    · rw [getD_append_left _ _ _ (by omega), hregs i hil,
        List.take_append_of_le_length (by omega)]
    · have hieq : i = s.actions.length := by omega
      subst hieq
      have hgd : (s.regrets ++
            [s.regret + (s.bandit.best_prob - s.bandit.probs.getD k 0)]).getD
            s.actions.length 0
          = s.regret + (s.bandit.best_prob - s.bandit.probs.getD k 0) := by
        rw [← hrlen]; exact getD_concat_length _ _ _
      have htake : (s.actions ++ [k]).take (s.actions.length + 1) = s.actions ++ [k] := by
        apply List.take_of_length_le
        simp
      rw [hgd, htake, probSum_append, hreg]
      have h2 : probSum s.bandit [k] = s.bandit.probs.getD k 0 := by simp [probSum]
      rw [h2]
      ring
  · intro a ha
    dsimp only at ha
    rcases List.mem_append.mp ha with h | h
    · exact hacts a h
    · simp at h; subst h; exact hkK

theorem solverInv_run {σ ρ : Type} (b : BernoulliBandit)
    (stepfn : BernoulliBandit → List ℕ → σ → ρ → ℕ × σ)
    (rnds : List ρ) :
    ∀ s : SolverState σ, SolverInv b s →
      (∀ r ∈ rnds, ∀ c p, (stepfn b c p r).1 < b.K) →
      SolverInv b (Solver.run stepfn s rnds) := by
  induction rnds with
  | nil => intro s hs _; exact hs
  | cons r rest ih =>
    intro s hs hstep
    have h1 : SolverInv b (Solver.runOneRound stepfn s r) :=
      solverInv_runOneRound b stepfn s r hs (hstep r (by simp))
    have := ih (Solver.runOneRound stepfn s r) h1
      (fun r' hr' => hstep r' (by simp [hr']))
    simpa [Solver.run, List.foldl_cons] using this

theorem run_actions_length {σ ρ : Type}
    (stepfn : BernoulliBandit → List ℕ → σ → ρ → ℕ × σ)
    (rnds : List ρ) :
    ∀ s : SolverState σ,
      (Solver.run stepfn s rnds).actions.length = s.actions.length + rnds.length := by
  induction rnds with
  | nil => intro s; simp [Solver.run]
  | cons r rest ih =>
    intro s
    have := ih (Solver.runOneRound stepfn s r)
    simp only [Solver.run, List.foldl_cons] at this ⊢
    rw [this]
    simp [Solver.runOneRound, Solver.update_regret]
    omega

/- ### The shared incremental update rule: mean recovery and bounds -/

theorem getD_out_of_range (l : List α) (i : ℕ) (h : l.length ≤ i) (d : α) :
    l.getD i d = d := by
  simp [List.getD_eq_getElem?_getD, List.getElem?_len_le h]

theorem pullsOf_cons (a : ℕ) (s : ℕ × ℚ) (steps : List (ℕ × ℚ)) :
    pullsOf a (s :: steps) =
      if s.1 = a then s.2 :: pullsOf a steps else pullsOf a steps := by
  by_cases h : s.1 = a <;> simp [pullsOf, List.filter_cons, h]

/-- The running state of the shared update rule at arm `a`: the tracked
count advances by the number of pulls of `a`, and `estimate * count`
advances by the total reward observed on `a` — the algebraic core of the
sample-mean recursion. -/
theorem sharedFold_spec (a : ℕ) (steps : List (ℕ × ℚ)) :
    ∀ est : List ℚ, ∀ cnt : List ℕ, a < est.length → a < cnt.length →
      (steps.foldl sharedStep (est, cnt)).1.length = est.length ∧
      (steps.foldl sharedStep (est, cnt)).2.length = cnt.length ∧
      (steps.foldl sharedStep (est, cnt)).2.getD a 0
        = cnt.getD a 0 + (pullsOf a steps).length ∧
      (steps.foldl sharedStep (est, cnt)).1.getD a 0
          * ((cnt.getD a 0 : ℚ) + ((pullsOf a steps).length : ℚ))
        = est.getD a 0 * (cnt.getD a 0 : ℚ) + (pullsOf a steps).sum := by
  induction steps with
  | nil =>
    intro est cnt _ _
    refine ⟨rfl, rfl, by simp [pullsOf], by simp [pullsOf]⟩
  | cons s rest ih =>
    intro est cnt ha hc
    have hlen1 : (updateEstimate est cnt s.1 s.2).length = est.length := by
      simp [updateEstimate]
    have hlen2 : (cnt.set s.1 (cnt.getD s.1 0 + 1)).length = cnt.length := by
      simp
    have hfold : (s :: rest).foldl sharedStep (est, cnt)
        = rest.foldl sharedStep
            (updateEstimate est cnt s.1 s.2, cnt.set s.1 (cnt.getD s.1 0 + 1)) := by
      simp [sharedStep]
    obtain ⟨ih1, ih2, ih3, ih4⟩ := ih (updateEstimate est cnt s.1 s.2)
      (cnt.set s.1 (cnt.getD s.1 0 + 1)) (by omega) (by omega)
    rw [hfold]
    refine ⟨by rw [ih1, hlen1], by rw [ih2, hlen2], ?_, ?_⟩
    · rw [ih3, pullsOf_cons]
      by_cases h : s.1 = a
      · subst h
        rw [getD_set_self cnt s.1 hc, if_pos rfl]
        simp only [List.length_cons]
        omega
      · rw [getD_set_ne cnt s.1 a h, if_neg h]
    · rw [pullsOf_cons]
      by_cases h : s.1 = a
      · subst h
        rw [getD_set_self cnt s.1 hc] at ih4
        have hest : (updateEstimate est cnt s.1 s.2).getD s.1 0
            = est.getD s.1 0
              + 1 / ((cnt.getD s.1 0 : ℚ) + 1) * (s.2 - est.getD s.1 0) := by
          unfold updateEstimate
          exact getD_set_self est s.1 ha _ 0
        rw [hest] at ih4
        rw [if_pos rfl]
        simp only [List.length_cons, List.sum_cons]
        have hpos : ((cnt.getD s.1 0 : ℚ) + 1) ≠ 0 := by positivity
        have key : (est.getD s.1 0
              + 1 / ((cnt.getD s.1 0 : ℚ) + 1) * (s.2 - est.getD s.1 0))
              * ((cnt.getD s.1 0 : ℚ) + 1)
            = est.getD s.1 0 * (cnt.getD s.1 0 : ℚ) + s.2 := by
          field_simp
          ring
        push_cast at ih4 ⊢
        linear_combination ih4 + key
      · rw [getD_set_ne cnt s.1 a h] at ih4
        rw [if_neg h]
        have hest : (updateEstimate est cnt s.1 s.2).getD a 0 = est.getD a 0 := by
          unfold updateEstimate
          exact getD_set_ne est s.1 a h _ 0
        rw [hest] at ih4
        exact ih4

/-- One application of the shared update line keeps every estimate inside
`[0, 1]` when the reward is: the new value is a convex combination of the
old estimate and the reward. -/
theorem updateEstimate_bounds (est : List ℚ) (counts : List ℕ) (k : ℕ) (r : ℚ)
    (hest : ∀ x ∈ est, 0 ≤ x ∧ x ≤ 1) (hr0 : 0 ≤ r) (hr1 : r ≤ 1) :
    ∀ x ∈ updateEstimate est counts k r, 0 ≤ x ∧ x ≤ 1 := by
  intro x hx
  rcases List.mem_or_eq_of_mem_set hx with h | h
  · exact hest x h
  · subst h
    have he : 0 ≤ est.getD k 0 ∧ est.getD k 0 ≤ 1 := by
      by_cases hk : k < est.length
      · exact hest _ (getD_mem_of_lt est 0 k hk)
      · rw [getD_out_of_range est k (by omega)]
        norm_num
    have hc : (0 : ℚ) ≤ (counts.getD k 0 : ℚ) := by positivity
    have hc1 : (0 : ℚ) < (counts.getD k 0 : ℚ) + 1 := by positivity
    have ha0 : (0 : ℚ) < 1 / ((counts.getD k 0 : ℚ) + 1) := by positivity
    have ha1 : 1 / ((counts.getD k 0 : ℚ) + 1) ≤ 1 := by
      rw [div_le_one hc1]; linarith
    constructor
    · nlinarith [he.1, he.2]
    · nlinarith [he.1, he.2]

/-- Every estimate stays in `[0, 1]` along any pull sequence with rewards
in `[0, 1]`. -/
theorem sharedFold_bounds (steps : List (ℕ × ℚ)) :
    ∀ est : List ℚ, ∀ cnt : List ℕ,
      (∀ x ∈ est, 0 ≤ x ∧ x ≤ 1) →
      (∀ s ∈ steps, s.2 = 0 ∨ s.2 = 1) →
      ∀ x ∈ (steps.foldl sharedStep (est, cnt)).1, 0 ≤ x ∧ x ≤ 1 := by
  induction steps with
  | nil => intro est cnt hest _; exact hest
  | cons s rest ih =>
    intro est cnt hest hr
    have hr0 : 0 ≤ s.2 ∧ s.2 ≤ 1 := by
      rcases hr s (by simp) with h | h <;> rw [h] <;> norm_num
    have hfold : (s :: rest).foldl sharedStep (est, cnt)
        = rest.foldl sharedStep
            (updateEstimate est cnt s.1 s.2, cnt.set s.1 (cnt.getD s.1 0 + 1)) := by
      simp [sharedStep]
    rw [hfold]
    exact ih _ _ (updateEstimate_bounds est cnt s.1 s.2 hest hr0.1 hr0.2)
      (fun s' hs' => hr s' (by simp [hs']))

/- ### Further structural lemmas -/

/-- On the in-range arm indices the policies produce, `BernoulliBandit.step`
succeeds and returns exactly the reward `BernoulliBandit.stepReward` used
inside the loop embedding. -/
theorem BernoulliBandit.step_eq_ok (b : BernoulliBandit) (k : ℕ) (ran : ℚ)
    (hk : k < b.probs.length) :
    b.step (k : ℤ) ran = Except.ok (b.stepReward k ran) := by
  unfold BernoulliBandit.step npIndex BernoulliBandit.stepReward
  rw [if_pos (by positivity)]
  rw [Int.toNat_natCast]
  rw [List.get?_eq_getElem?, List.getElem?_eq_getElem hk]
  simp [List.getD_eq_getElem?_getD, List.getElem?_eq_getElem hk]

theorem updateEstimate_length (est : List ℚ) (counts : List ℕ) (k : ℕ) (r : ℚ) :
    (updateEstimate est counts k r).length = est.length := by
  simp [updateEstimate]

theorem ucbScores_length (coef : ℝ) (total : ℕ) (est : List ℚ) (counts : List ℕ) :
    (UCB.ucbScores coef total est counts).length = est.length := by
  simp [UCB.ucbScores]

theorem ucbScores_getD (coef : ℝ) (total : ℕ) (est : List ℚ) (counts : List ℕ)
    (i : ℕ) (hi : i < est.length) :
    (UCB.ucbScores coef total est counts).getD i 0
      = UCB.score coef total ((est.getD i 0 : ℚ) : ℝ) (counts.getD i 0) := by
  unfold UCB.ucbScores
  rw [List.getD_eq_getElem?_getD, List.getElem?_map, List.getElem?_range hi]
  rfl

/- ### The degenerate single-arm bandit -/

/-- Running any policy on a single-arm bandit from a state with zero regret
and all-zero history keeps the regret at zero and every chosen arm equal to
`0`, provided each policy step chooses arm `0`. -/
theorem run_zero_regret {σ ρ : Type} (b : BernoulliBandit) (pr : ℚ)
    (hb : b.probs = [pr]) (hbest : b.best_prob = pr)
    (stepfn : BernoulliBandit → List ℕ → σ → ρ → ℕ × σ)
    (motive : σ → Prop) (rnds : List ρ)
    (hstep : ∀ c p, ∀ r ∈ rnds, motive p →
      (stepfn b c p r).1 = 0 ∧ motive (stepfn b c p r).2) :
    ∀ s : SolverState σ, s.bandit = b → motive s.policy →
      s.regret = 0 → (∀ a ∈ s.actions, a = 0) → (∀ q ∈ s.regrets, q = 0) →
      (Solver.run stepfn s rnds).regret = 0 ∧
      (∀ a ∈ (Solver.run stepfn s rnds).actions, a = 0) ∧
      (∀ q ∈ (Solver.run stepfn s rnds).regrets, q = 0) := by
  induction rnds with
  | nil =>
    intro s hband hm hreg hacts hregs
    exact ⟨hreg, hacts, hregs⟩
  | cons r rest ih =>
    intro s hband hm hreg hacts hregs
    obtain ⟨hk0, hm'⟩ := hstep s.counts s.policy r (by simp) hm
    have hprob : b.probs.getD 0 0 = pr := by rw [hb]; rfl
    have hfld1 : (Solver.runOneRound stepfn s r).bandit = s.bandit := rfl
    have hfld2 : (Solver.runOneRound stepfn s r).policy
        = (stepfn s.bandit s.counts s.policy r).2 := rfl
    have hfld3 : (Solver.runOneRound stepfn s r).actions
        = s.actions ++ [(stepfn s.bandit s.counts s.policy r).1] := rfl
    have hfld4 : (Solver.runOneRound stepfn s r).regret
        = s.regret + (s.bandit.best_prob
            - s.bandit.probs.getD (stepfn s.bandit s.counts s.policy r).1 0) := rfl
    have hfld5 : (Solver.runOneRound stepfn s r).regrets
        = s.regrets ++ [s.regret + (s.bandit.best_prob
            - s.bandit.probs.getD (stepfn s.bandit s.counts s.policy r).1 0)] := rfl
    have hknew : (stepfn s.bandit s.counts s.policy r).1 = 0 := by rw [hband]; exact hk0
    have hregnew : s.regret + (s.bandit.best_prob
        - s.bandit.probs.getD (stepfn s.bandit s.counts s.policy r).1 0) = 0 := by
      rw [hknew, hband, hbest, hprob, hreg]
      ring
    have hrun : Solver.run stepfn s (r :: rest)
        = Solver.run stepfn (Solver.runOneRound stepfn s r) rest := by
      simp [Solver.run]
    rw [hrun]
    apply ih (fun c p r' hr' => hstep c p r' (by simp [hr'])) (Solver.runOneRound stepfn s r)
    · rw [hfld1]; exact hband
    · rw [hfld2, hband]; exact hm'
    · rw [hfld4]; exact hregnew
    · rw [hfld3]
      intro a ha
      rcases List.mem_append.mp ha with h | h
      · exact hacts a h
      · simp at h
        rw [h, hknew]
    · rw [hfld5]
      intro q hq
      rcases List.mem_append.mp hq with h | h
      · exact hregs q h
      · rw [List.mem_singleton.mp h]
        exact hregnew

theorem eg_step_arm_zero (b : BernoulliBandit) (c : List ℕ) (p : EpsilonGreedy)
    (rnd : SelectRand) (hj : rnd.j = 0) (hlen : p.estimates.length = 1) :
    (EpsilonGreedy.run_one_step b c p rnd).1 = 0 ∧
    (EpsilonGreedy.run_one_step b c p rnd).2.estimates.length = 1 := by
  constructor
  · show (if rnd.e < p.epsilon then rnd.j else argmaxIdx p.estimates) = 0
    by_cases h : rnd.e < p.epsilon
    · rw [if_pos h]; exact hj
    · rw [if_neg h]; exact argmaxIdx_of_length_one _ hlen
  · show (updateEstimate p.estimates c _ _).length = 1
    rw [updateEstimate_length]; exact hlen

theorem deg_step_arm_zero (b : BernoulliBandit) (c : List ℕ) (p : DecayingEpsilonGreedy)
    (rnd : SelectRand) (hj : rnd.j = 0) (hlen : p.estimates.length = 1) :
    (DecayingEpsilonGreedy.run_one_step b c p rnd).1 = 0 ∧
    (DecayingEpsilonGreedy.run_one_step b c p rnd).2.estimates.length = 1 := by
  constructor
  · show (if rnd.e < DecayingEpsilonGreedy.eps (p.total_count + 1) then rnd.j
        else argmaxIdx p.estimates) = 0
    by_cases h : rnd.e < DecayingEpsilonGreedy.eps (p.total_count + 1)
    · rw [if_pos h]; exact hj
    · rw [if_neg h]; exact argmaxIdx_of_length_one _ hlen
  · show (updateEstimate p.estimates c _ _).length = 1
    rw [updateEstimate_length]; exact hlen

theorem ucb_step_arm_zero (b : BernoulliBandit) (c : List ℕ) (p : UCB)
    (rnd : ℚ) (hlen : p.estimates.length = 1) :
    (UCB.run_one_step b c p rnd).1 = 0 ∧
    (UCB.run_one_step b c p rnd).2.estimates.length = 1 := by
  have hslen : (UCB.ucbScores p.coef (p.total_count + 1) p.estimates c).length = 1 := by
    rw [ucbScores_length]; exact hlen
  constructor
  · show argmaxIdx (UCB.ucbScores p.coef (p.total_count + 1) p.estimates c) = 0
    exact argmaxIdx_of_length_one _ hslen
  · show (updateEstimate p.estimates c _ _).length = 1
    rw [updateEstimate_length]; exact hlen

/-- A constructed bandit is well formed: `K` matches the length of `probs`,
there is at least one arm, and `best_prob` bounds every true probability. -/
theorem BernoulliBandit.init_wf (K : ℤ) (u : ℕ → ℚ) (b : BernoulliBandit)
    (h : BernoulliBandit.init K u = Except.ok b) :
    b.probs.length = b.K ∧ b.probs ≠ [] ∧
    (∀ a, a < b.K → b.probs.getD a 0 ≤ b.best_prob) := by
  unfold BernoulliBandit.init at h
  by_cases hK : K ≤ 0
  · rw [if_pos hK] at h; exact absurd h (by simp)
  · rw [if_neg hK] at h
    have hb : b = { probs := (List.range K.toNat).map u
                    best_idx := argmaxIdx ((List.range K.toNat).map u)
                    best_prob := ((List.range K.toNat).map u).getD
                      (argmaxIdx ((List.range K.toNat).map u)) 0
                    K := K.toNat } := by
      cases h; rfl
    subst hb
    have hKpos : 0 < K.toNat := by omega
    have hlen : ((List.range K.toNat).map u).length = K.toNat := by simp
    refine ⟨hlen, ?_, ?_⟩
    · intro hnil
      have hnil' : (List.range K.toNat).map u = [] := hnil
      rw [hnil'] at hlen
      simp at hlen
      omega
    · intro a ha
      exact getD_le_getD_argmaxIdx 0 _ a (by rw [hlen]; exact ha)

/- ### Claim theorems -/

/-- C1: for every policy plugged into the learning loop, after `run` has
executed `n = rnds.length` rounds in total from a fresh solver, the per-arm
pull counts sum to `n`, and the cumulative-regret snapshot after round `t`
equals `best_prob * t` minus the sum of the true probabilities of the arms
pulled in rounds `1..t`; moreover `run` over a concatenation is the two
runs in sequence, so the accounting also covers repeated `run` calls. -/
theorem solver_run_counts_sum_and_regret {σ ρ : Type} (b : BernoulliBandit)
    (stepfn : BernoulliBandit → List ℕ → σ → ρ → ℕ × σ) (p0 : σ) (rnds : List ρ)
    (hstep : ∀ r ∈ rnds, ∀ c p, (stepfn b c p r).1 < b.K) :
    (Solver.run stepfn (Solver.mkInit b p0) rnds).counts.sum = rnds.length ∧
    (∀ t, 1 ≤ t → t ≤ rnds.length →
      (Solver.run stepfn (Solver.mkInit b p0) rnds).regrets.getD (t - 1) 0
        = b.best_prob * (t : ℚ)
          - probSum b ((Solver.run stepfn (Solver.mkInit b p0) rnds).actions.take t)) ∧
    (∀ xs ys, rnds = xs ++ ys →
      Solver.run stepfn (Solver.mkInit b p0) rnds
        = Solver.run stepfn (Solver.run stepfn (Solver.mkInit b p0) xs) ys) := by
  have hlen := run_actions_length stepfn rnds (Solver.mkInit b p0)
  have hlen0 : (Solver.mkInit b p0).actions.length = 0 := rfl
  rw [hlen0] at hlen
  obtain ⟨_, _, hsum, hrlen, _, hregs, _⟩ :=
    solverInv_run b stepfn rnds (Solver.mkInit b p0) (solverInv_mkInit b p0) hstep
  refine ⟨?_, ?_, ?_⟩
  · rw [hsum, hlen]; omega
  · intro t h1 h2
    have hidx : t - 1 < (Solver.run stepfn (Solver.mkInit b p0) rnds).actions.length := by
      omega
    have h3 := hregs (t - 1) hidx
    rw [Nat.sub_add_cancel h1] at h3
    have hc : ((t - 1 : ℕ) : ℚ) + 1 = (t : ℚ) := by
      rw [Nat.cast_sub h1]
      ring
    rw [hc] at h3
    exact h3
  · intro xs ys hxy
    rw [hxy]
    simp [Solver.run, List.foldl_append]

/-- C3: for every policy, after a single `run` call on a fresh loop
instance the cumulative-regret snapshot sequence has length `num_rounds`
and is non-decreasing (given the ground truth that `best_prob` bounds
every arm's probability, which holds for every constructed bandit by
`BernoulliBandit.init_wf`). -/
theorem regrets_monotone_and_length {σ ρ : Type} (b : BernoulliBandit)
    (stepfn : BernoulliBandit → List ℕ → σ → ρ → ℕ × σ) (p0 : σ) (rnds : List ρ)
    (hwf : ∀ a, a < b.K → b.probs.getD a 0 ≤ b.best_prob)
    (hstep : ∀ r ∈ rnds, ∀ c p, (stepfn b c p r).1 < b.K) :
    (Solver.run stepfn (Solver.mkInit b p0) rnds).regrets.length = rnds.length ∧
    (∀ i, i + 1 < (Solver.run stepfn (Solver.mkInit b p0) rnds).regrets.length →
      (Solver.run stepfn (Solver.mkInit b p0) rnds).regrets.getD i 0
        ≤ (Solver.run stepfn (Solver.mkInit b p0) rnds).regrets.getD (i + 1) 0) := by
  have hlen := run_actions_length stepfn rnds (Solver.mkInit b p0)
  have hlen0 : (Solver.mkInit b p0).actions.length = 0 := rfl
  rw [hlen0] at hlen
  obtain ⟨_, _, _, hrlen, _, hregs, hacts⟩ :=
    solverInv_run b stepfn rnds (Solver.mkInit b p0) (solverInv_mkInit b p0) hstep
  constructor
  · rw [hrlen, hlen]; omega
  · intro i hi
    rw [hrlen] at hi
    have h1 := hregs i (by omega)
    have h2 := hregs (i + 1) hi
    have hmem : (Solver.run stepfn (Solver.mkInit b p0) rnds).actions.getD (i + 1) 0
        ∈ (Solver.run stepfn (Solver.mkInit b p0) rnds).actions :=
      getD_mem_of_lt _ 0 (i + 1) hi
    have haK := hacts _ hmem
    have htake : (Solver.run stepfn (Solver.mkInit b p0) rnds).actions.take (i + 1 + 1)
        = (Solver.run stepfn (Solver.mkInit b p0) rnds).actions.take (i + 1)
          ++ [(Solver.run stepfn (Solver.mkInit b p0) rnds).actions.getD (i + 1) 0] := by
      rw [List.take_succ]
      congr 1
      rw [List.getElem?_eq_getElem hi]
      simp [List.getD_eq_getElem?_getD, List.getElem?_eq_getElem hi]
    rw [h1, h2, htake, probSum_append]
    have hsing : probSum b [(Solver.run stepfn (Solver.mkInit b p0) rnds).actions.getD (i + 1) 0]
        = b.probs.getD ((Solver.run stepfn (Solver.mkInit b p0) rnds).actions.getD (i + 1) 0) 0 := by
      simp [probSum]
    rw [hsing]
    have hb := hwf _ haK
    push_cast
    linarith

/-- C2: for any policy using the shared incremental update rule, after arm
`a` has been pulled with observed rewards `r_1..r_n` (each 0 or 1, in any
interleaving with pulls of other arms, and with the pull counts tracked as
`Solver.run` tracks them), `estimate[a]` is the arithmetic mean of
`r_1..r_n`, regardless of the initial prior `init`. -/
theorem shared_update_rule_mean (K : ℕ) (init : ℚ) (a : ℕ) (ha : a < K)
    (steps : List (ℕ × ℚ))
    (_hr : ∀ s ∈ steps, s.2 = 0 ∨ s.2 = 1)
    (hne : pullsOf a steps ≠ []) :
    (sharedUpdateRun K init steps).1.getD a 0
      = (pullsOf a steps).sum / ((pullsOf a steps).length : ℚ) := by
  unfold sharedUpdateRun
  obtain ⟨_, _, _, h4⟩ := sharedFold_spec a steps (List.replicate K init)
    (List.replicate K 0) (by simpa using ha) (by simpa using ha)
  rw [getD_replicate_of_lt K 0 0 a ha] at h4
  have hlenpos : (0 : ℚ) < ((pullsOf a steps).length : ℚ) := by
    have h := List.length_pos.mpr hne
    exact_mod_cast h
  rw [eq_div_iff (ne_of_gt hlenpos)]
  push_cast at h4 ⊢
  linear_combination h4

/-- C10: starting from a prior `init ∈ [0,1]`, every per-arm estimate
remains in `[0,1]` after any sequence of shared-rule update steps with
rewards in {0,1}: each update is a convex combination of the old estimate
and the binary reward. -/
theorem estimates_remain_in_unit_interval (K : ℕ) (init : ℚ)
    (h0 : 0 ≤ init) (h1 : init ≤ 1)
    (steps : List (ℕ × ℚ)) (hr : ∀ s ∈ steps, s.2 = 0 ∨ s.2 = 1)
    (a : ℕ) (ha : a < K) :
    0 ≤ (sharedUpdateRun K init steps).1.getD a 0 ∧
    (sharedUpdateRun K init steps).1.getD a 0 ≤ 1 := by
  unfold sharedUpdateRun
  have hb := sharedFold_bounds steps (List.replicate K init) (List.replicate K 0)
    (by intro x hx; rw [List.eq_of_mem_replicate hx]; exact ⟨h0, h1⟩) hr
  have hlen : (steps.foldl sharedStep
      (List.replicate K init, List.replicate K 0)).1.length = K := by
    obtain ⟨h1', _, _, _⟩ := sharedFold_spec a steps (List.replicate K init)
      (List.replicate K 0) (by simpa using ha) (by simpa using ha)
    simpa using h1'
  exact hb _ (getD_mem_of_lt _ 0 a (by rw [hlen]; exact ha))

/-- C4 counterexample: with `K = 2` arms, the out-of-range index `-1`
(outside `[0, K)`) does not fail: numpy's negative indexing wraps it to
arm `1` and the pull returns a normal reward. -/
theorem step_negative_index_no_failure :
    bTwo.step (-1) (1/2) = Except.ok 1 ∧
    bTwo.step (-1) (1/2) ≠ Except.error BanditError.InvalidArm := by
  have h : bTwo.step (-1) (1/2) = Except.ok 1 := by
    norm_num [bTwo, BernoulliBandit.step, npIndex]
  refine ⟨h, ?_⟩
  rw [h]
  intro hc
  exact Except.noConfusion hc

/-- C4 (amended): `pull` fails only for indices below `-K` or at/above `K`;
for an index in `[0, K)` it returns 1 exactly when the fresh uniform draw
is strictly below that arm's true probability, and for an index in
`[-K, 0)` Python negative indexing applies, returning the reward of arm
`K + k` instead of failing. -/
theorem bandit_step_index_spec (b : BernoulliBandit) (k : ℤ) (ran : ℚ) :
    ((k < -(b.probs.length : ℤ) ∨ (b.probs.length : ℤ) ≤ k) →
      b.step k ran = Except.error BanditError.InvalidArm) ∧
    (0 ≤ k → k < (b.probs.length : ℤ) →
      b.step k ran = Except.ok (if ran < b.probs.getD k.toNat 0 then 1 else 0)) ∧
    (-(b.probs.length : ℤ) ≤ k → k < 0 →
      b.step k ran
        = Except.ok (if ran < b.probs.getD ((b.probs.length : ℤ) + k).toNat 0 then 1 else 0)) := by
  refine ⟨?_, ?_, ?_⟩
  · intro hk
    unfold BernoulliBandit.step npIndex
    rcases hk with hk | hk
    · rw [if_neg (by omega), if_neg (by omega)]
    · rw [if_pos (by omega)]
      have hnone : b.probs.get? k.toNat = none := by
        rw [List.get?_eq_getElem?]
        exact List.getElem?_len_le (by omega)
      rw [hnone]
  · intro hk0 hkL
    unfold BernoulliBandit.step npIndex
    rw [if_pos hk0]
    have hlt : k.toNat < b.probs.length := by omega
    rw [List.get?_eq_getElem?, List.getElem?_eq_getElem hlt]
    simp [List.getD_eq_getElem?_getD, List.getElem?_eq_getElem hlt]
  · intro hkL hk0
    unfold BernoulliBandit.step npIndex
    rw [if_neg (by omega), if_pos (by omega)]
    have hlt : ((b.probs.length : ℤ) + k).toNat < b.probs.length := by omega
    rw [List.get?_eq_getElem?, List.getElem?_eq_getElem hlt]
    simp [List.getD_eq_getElem?_getD, List.getElem?_eq_getElem hlt]

/-- C5: with uniform draws in `[0,1)`, constructing the environment fails
for every `K ≤ 0`, and for every `K ≥ 1` it produces exactly `K`
probabilities each in `[0,1)`, with `best_prob` the maximum of the sequence
and `best_idx` its first-occurring index. -/
theorem bandit_init_spec (u : ℕ → ℚ) (hu : ∀ n, 0 ≤ u n ∧ u n < 1) :
    (∀ K : ℤ, K ≤ 0 →
      BernoulliBandit.init K u = Except.error BanditError.InvalidConfiguration) ∧
    (∀ K : ℤ, 1 ≤ K → ∃ b : BernoulliBandit,
      BernoulliBandit.init K u = Except.ok b ∧
      (b.probs.length : ℤ) = K ∧ b.K = K.toNat ∧
      (∀ p ∈ b.probs, 0 ≤ p ∧ p < 1) ∧
      b.best_prob ∈ b.probs ∧
      (∀ p ∈ b.probs, p ≤ b.best_prob) ∧
      b.best_idx < b.probs.length ∧
      b.probs.getD b.best_idx 0 = b.best_prob ∧
      (∀ i, i < b.best_idx → b.probs.getD i 0 < b.best_prob)) := by
  constructor
  · intro K hK
    unfold BernoulliBandit.init
    rw [if_pos hK]
  · intro K hK
    refine ⟨{ probs := (List.range K.toNat).map u
              best_idx := argmaxIdx ((List.range K.toNat).map u)
              best_prob := ((List.range K.toNat).map u).getD
                (argmaxIdx ((List.range K.toNat).map u)) 0
              K := K.toNat }, ?_, ?_, rfl, ?_, ?_, ?_, ?_, rfl, ?_⟩
    · unfold BernoulliBandit.init
      rw [if_neg (by omega)]
    · simp only [List.length_map, List.length_range]
      omega
    · intro p hp
      obtain ⟨n, _, hn⟩ := List.mem_map.mp hp
      rw [← hn]
      exact hu n
    · have hne : (List.range K.toNat).map u ≠ [] := by
        apply List.ne_nil_of_length_pos
        simp only [List.length_map, List.length_range]
        omega
      exact getD_mem_of_lt _ 0 _ (argmaxIdx_lt_length _ hne)
    · intro p hp
      obtain ⟨i, hi, hip⟩ := List.mem_iff_getElem.mp hp
      have hpd : ((List.range K.toNat).map u).getD i 0 = p := by
        rw [List.getD_eq_getElem?_getD, List.getElem?_eq_getElem hi]
        exact hip
      rw [← hpd]
      exact getD_le_getD_argmaxIdx 0 _ i hi
    · have hne : (List.range K.toNat).map u ≠ [] := by
        apply List.ne_nil_of_length_pos
        simp only [List.length_map, List.length_range]
        omega
      exact argmaxIdx_lt_length _ hne
    · intro i hi
      exact getD_lt_getD_argmaxIdx 0 _ i hi

/-- C6: the decaying policy's exploration threshold at its own (1-indexed)
round `t` is `0.01 - 1/t`; with a non-negative uniform draw it never
triggers exploration while `t ≤ 100` (the threshold is `≤ 0` there and
exactly `0` at `t = 100`), and it increases strictly toward `0.01` as `t`
grows, coming arbitrarily close from below. -/
theorem decaying_epsilon_spec (b : BernoulliBandit) (counts : List ℕ)
    (p : DecayingEpsilonGreedy) (rnd : SelectRand) :
    ((DecayingEpsilonGreedy.run_one_step b counts p rnd).1
      = if rnd.e < DecayingEpsilonGreedy.eps (p.total_count + 1) then rnd.j
        else argmaxIdx p.estimates) ∧
    (DecayingEpsilonGreedy.run_one_step b counts p rnd).2.total_count = p.total_count + 1 ∧
    (∀ t : ℕ, 1 ≤ t → t ≤ 100 → DecayingEpsilonGreedy.eps t ≤ 0) ∧
    DecayingEpsilonGreedy.eps 100 = 0 ∧
    (0 ≤ rnd.e → p.total_count + 1 ≤ 100 →
      (DecayingEpsilonGreedy.run_one_step b counts p rnd).1 = argmaxIdx p.estimates) ∧
    (∀ t : ℕ, 1 ≤ t → DecayingEpsilonGreedy.eps t < DecayingEpsilonGreedy.eps (t + 1)) ∧
    (∀ t : ℕ, 1 ≤ t → DecayingEpsilonGreedy.eps t < 1 / 100) ∧
    (∀ q : ℚ, q < 1 / 100 → ∃ t : ℕ, 1 ≤ t ∧ q < DecayingEpsilonGreedy.eps t) := by
  have heps_le : ∀ t : ℕ, 1 ≤ t → t ≤ 100 → DecayingEpsilonGreedy.eps t ≤ 0 := by
    intro t h1 h2
    unfold DecayingEpsilonGreedy.eps
    have ht : (0 : ℚ) < (t : ℚ) := by exact_mod_cast h1
    have h100 : (t : ℚ) ≤ 100 := by exact_mod_cast h2
    have := one_div_le_one_div_of_le ht h100
    linarith
  refine ⟨rfl, rfl, heps_le, by norm_num [DecayingEpsilonGreedy.eps], ?_, ?_, ?_, ?_⟩
  · intro he hle
    show (if rnd.e < DecayingEpsilonGreedy.eps (p.total_count + 1) then rnd.j
        else argmaxIdx p.estimates) = argmaxIdx p.estimates
    rw [if_neg]
    intro hcon
    have := heps_le (p.total_count + 1) (by omega) hle
    linarith
  · intro t h1
    unfold DecayingEpsilonGreedy.eps
    have ht : (0 : ℚ) < (t : ℚ) := by exact_mod_cast h1
    have ht1 : (t : ℚ) < ((t + 1 : ℕ) : ℚ) := by push_cast; linarith
    have := one_div_lt_one_div_of_lt ht ht1
    linarith
  · intro t h1
    unfold DecayingEpsilonGreedy.eps
    have ht : (0 : ℚ) < (t : ℚ) := by exact_mod_cast h1
    have := one_div_pos.mpr ht
    linarith
  · intro q hq
    have hd : (0 : ℚ) < 1 / 100 - q := by linarith
    refine ⟨Nat.ceil (1 / (1 / 100 - q)) + 1, by omega, ?_⟩
    have hceil : 1 / (1 / 100 - q) ≤ (Nat.ceil (1 / (1 / 100 - q)) : ℚ) := Nat.le_ceil _
    have ht : (0 : ℚ) < ((Nat.ceil (1 / (1 / 100 - q)) + 1 : ℕ) : ℚ) := by positivity
    have hgt : 1 / (1 / 100 - q) < ((Nat.ceil (1 / (1 / 100 - q)) + 1 : ℕ) : ℚ) := by
      push_cast
      linarith
    have h1t : 1 / ((Nat.ceil (1 / (1 / 100 - q)) + 1 : ℕ) : ℚ) < 1 / 100 - q := by
      rw [div_lt_iff₀ ht]
      have := (div_lt_iff₀ hd).mp hgt
      linarith
    unfold DecayingEpsilonGreedy.eps
    linarith

/-- C7: at each of the UCB policy's own rounds, the round counter is
incremented before the score computation (so the logarithm argument is at
least 1), every arm's score is
`estimate[i] + coef * sqrt(ln(total_rounds) / (2 * (count[i] + 1)))`, and
the chosen arm maximises the score with ties broken by the first-occurring
index. -/
theorem ucb_run_one_step_spec (b : BernoulliBandit) (counts : List ℕ)
    (p : UCB) (rnd : ℚ) (hne : p.estimates ≠ []) :
    (UCB.run_one_step b counts p rnd).2.total_count = p.total_count + 1 ∧
    1 ≤ (UCB.run_one_step b counts p rnd).2.total_count ∧
    (∀ i, i < p.estimates.length →
      (UCB.ucbScores p.coef (p.total_count + 1) p.estimates counts).getD i 0
        = ((p.estimates.getD i 0 : ℚ) : ℝ)
          + p.coef * Real.sqrt (Real.log ((p.total_count + 1 : ℕ) : ℝ)
              / (2 * (((counts.getD i 0 : ℕ) : ℝ) + 1)))) ∧
    (UCB.run_one_step b counts p rnd).1 < p.estimates.length ∧
    (∀ i, i < p.estimates.length →
      (UCB.ucbScores p.coef (p.total_count + 1) p.estimates counts).getD i 0
        ≤ (UCB.ucbScores p.coef (p.total_count + 1) p.estimates counts).getD
            ((UCB.run_one_step b counts p rnd).1) 0) ∧
    (∀ i, i < (UCB.run_one_step b counts p rnd).1 →
      (UCB.ucbScores p.coef (p.total_count + 1) p.estimates counts).getD i 0
        < (UCB.ucbScores p.coef (p.total_count + 1) p.estimates counts).getD
            ((UCB.run_one_step b counts p rnd).1) 0) := by
  have hslen : (UCB.ucbScores p.coef (p.total_count + 1) p.estimates counts).length
      = p.estimates.length := ucbScores_length _ _ _ _
  have hsne : UCB.ucbScores p.coef (p.total_count + 1) p.estimates counts ≠ [] := by
    apply List.ne_nil_of_length_pos
    rw [hslen]
    exact List.length_pos.mpr hne
  have hlt := argmaxIdx_lt_length _ hsne
  refine ⟨rfl, Nat.succ_le_succ (Nat.zero_le p.total_count), ?_, ?_, ?_, ?_⟩
  · intro i hi
    rw [ucbScores_getD _ _ _ _ i hi]
    rfl
  · show argmaxIdx (UCB.ucbScores p.coef (p.total_count + 1) p.estimates counts)
      < p.estimates.length
    rw [← hslen]
    exact hlt
  · intro i hi
    exact getD_le_getD_argmaxIdx 0 _ i (by rw [hslen]; exact hi)
  · intro i hi
    exact getD_lt_getD_argmaxIdx 0 _ i hi

/-- C8: with a non-negative coefficient and `total_rounds ≥ 1`, the UCB
score is monotonically decreasing in the arm's own pull count when the
estimate and the round counter are held fixed. -/
theorem ucb_score_antitone_in_count (coef est : ℝ) (total : ℕ)
    (hcoef : 0 ≤ coef) (htotal : 1 ≤ total) (c1 c2 : ℕ) (hc : c1 < c2) :
    UCB.score coef total est c2 ≤ UCB.score coef total est c1 := by
  unfold UCB.score
  have hlog : 0 ≤ Real.log (total : ℝ) := Real.log_nonneg (by exact_mod_cast htotal)
  have h1 : (0 : ℝ) < 2 * ((c1 : ℝ) + 1) := by positivity
  have hcc : ((c1 : ℝ) + 1) ≤ ((c2 : ℝ) + 1) := by
    have : (c1 : ℝ) ≤ (c2 : ℝ) := by exact_mod_cast le_of_lt hc
    linarith
  have hdiv : Real.log (total : ℝ) / (2 * ((c2 : ℝ) + 1))
      ≤ Real.log (total : ℝ) / (2 * ((c1 : ℝ) + 1)) := by
    apply div_le_div_of_nonneg_left hlog h1
    linarith
  have hsqrt := Real.sqrt_le_sqrt hdiv
  exact add_le_add_left (mul_le_mul_of_nonneg_left hsqrt hcoef) est

/-- C9: on a single-arm bandit (`K = 1`), each of the three policies
selects arm 0 at every round — on the exploration branch because the
`randint` draw is in `[0, 1)`, on the exploitation branch because the
argmax over one score is index 0 — and the cumulative regret stays exactly
0 for all rounds. -/
theorem k_one_all_policies_zero_regret (b : BernoulliBandit) (pr : ℚ)
    (hb : b.probs = [pr]) (hbest : b.best_prob = pr) (hK : b.K = 1)
    (epsilon init_prob : ℚ) (coef : ℝ)
    (rndsE rndsD : List SelectRand) (rndsU : List ℚ)
    (hjE : ∀ r ∈ rndsE, r.j < b.K) (hjD : ∀ r ∈ rndsD, r.j < b.K) :
    ((Solver.run EpsilonGreedy.run_one_step
        (Solver.mkInit b (EpsilonGreedy.mkInit b epsilon init_prob)) rndsE).regret = 0 ∧
      (∀ a ∈ (Solver.run EpsilonGreedy.run_one_step
        (Solver.mkInit b (EpsilonGreedy.mkInit b epsilon init_prob)) rndsE).actions, a = 0) ∧
      (∀ q ∈ (Solver.run EpsilonGreedy.run_one_step
        (Solver.mkInit b (EpsilonGreedy.mkInit b epsilon init_prob)) rndsE).regrets, q = 0)) ∧
    ((Solver.run DecayingEpsilonGreedy.run_one_step
        (Solver.mkInit b (DecayingEpsilonGreedy.mkInit b init_prob)) rndsD).regret = 0 ∧
      (∀ a ∈ (Solver.run DecayingEpsilonGreedy.run_one_step
        (Solver.mkInit b (DecayingEpsilonGreedy.mkInit b init_prob)) rndsD).actions, a = 0) ∧
      (∀ q ∈ (Solver.run DecayingEpsilonGreedy.run_one_step
        (Solver.mkInit b (DecayingEpsilonGreedy.mkInit b init_prob)) rndsD).regrets, q = 0)) ∧
    ((Solver.run UCB.run_one_step
        (Solver.mkInit b (UCB.mkInit b coef init_prob)) rndsU).regret = 0 ∧
      (∀ a ∈ (Solver.run UCB.run_one_step
        (Solver.mkInit b (UCB.mkInit b coef init_prob)) rndsU).actions, a = 0) ∧
      (∀ q ∈ (Solver.run UCB.run_one_step
        (Solver.mkInit b (UCB.mkInit b coef init_prob)) rndsU).regrets, q = 0)) := by
  refine ⟨?_, ?_, ?_⟩
  · exact run_zero_regret b pr hb hbest EpsilonGreedy.run_one_step
      (fun p => p.estimates.length = 1) rndsE
      (fun c p r hr hm => eg_step_arm_zero b c p r (by have := hjE r hr; omega) hm)
      _ rfl (by simp [Solver.mkInit, EpsilonGreedy.mkInit, hK]) rfl
      (by intro a ha; exact absurd ha (List.not_mem_nil a))
      (by intro q hq; exact absurd hq (List.not_mem_nil q))
  · exact run_zero_regret b pr hb hbest DecayingEpsilonGreedy.run_one_step
      (fun p => p.estimates.length = 1) rndsD
      (fun c p r hr hm => deg_step_arm_zero b c p r (by have := hjD r hr; omega) hm)
      _ rfl (by simp [Solver.mkInit, DecayingEpsilonGreedy.mkInit, hK]) rfl
      (by intro a ha; exact absurd ha (List.not_mem_nil a))
      (by intro q hq; exact absurd hq (List.not_mem_nil q))
  · exact run_zero_regret b pr hb hbest UCB.run_one_step
      (fun p => p.estimates.length = 1) rndsU
      (fun c p r _ hm => ucb_step_arm_zero b c p r hm)
      _ rfl (by simp [Solver.mkInit, UCB.mkInit, hK]) rfl
      (by intro a ha; exact absurd ha (List.not_mem_nil a))
      (by intro q hq; exact absurd hq (List.not_mem_nil q))

theorem solver_run_counts_sum_and_regret_witness :
    (Solver.run (fun _ _ _ _ => ((0 : ℕ), ()))
      (Solver.mkInit bTwo ()) [(), (), ()]).counts.sum = 3 :=
  (solver_run_counts_sum_and_regret bTwo (fun _ _ _ _ => ((0 : ℕ), ())) ()
    [(), (), ()] (fun _ _ _ _ => Nat.zero_lt_two)).1

theorem shared_update_rule_mean_witness :
    (sharedUpdateRun 2 7 [(0, 1), (1, 0), (0, 0)]).1.getD 0 0
      = (pullsOf 0 [(0, 1), (1, 0), (0, 0)]).sum
        / ((pullsOf 0 [(0, 1), (1, 0), (0, 0)]).length : ℚ) :=
  shared_update_rule_mean 2 7 0 (by decide) [(0, 1), (1, 0), (0, 0)]
    (by decide) (by decide)

theorem regrets_monotone_and_length_witness :
    (Solver.run (fun _ _ _ _ => ((0 : ℕ), ()))
      (Solver.mkInit bTwo ()) [(), ()]).regrets.length = 2 :=
  (regrets_monotone_and_length bTwo (fun _ _ _ _ => ((0 : ℕ), ())) () [(), ()]
    (by
      intro a ha
      have ha2 : a < 2 := ha
      interval_cases a <;> norm_num [bTwo, List.getD_cons_zero, List.getD_cons_succ])
    (fun _ _ _ _ => Nat.zero_lt_two)).1

theorem bandit_step_index_spec_witness :
    bTwo.step 5 (1/2) = Except.error BanditError.InvalidArm :=
  (bandit_step_index_spec bTwo 5 (1/2)).1 (Or.inr (by decide))

theorem bandit_init_spec_witness :
    BernoulliBandit.init (-3) (fun _ => 1/2)
      = Except.error BanditError.InvalidConfiguration :=
  (bandit_init_spec (fun _ => 1/2) (fun _ => by norm_num)).1 (-3) (by norm_num)

theorem decaying_epsilon_spec_witness :
    (DecayingEpsilonGreedy.run_one_step bTwo [0, 0]
      { estimates := [1, 1], total_count := 5 } { e := 1/2, j := 0, u := 1/2 }).1
      = argmaxIdx ([1, 1] : List ℚ) :=
  (decaying_epsilon_spec bTwo [0, 0] { estimates := [1, 1], total_count := 5 }
    { e := 1/2, j := 0, u := 1/2 }).2.2.2.2.1 (by norm_num) (by norm_num)

theorem ucb_run_one_step_spec_witness :
    (UCB.run_one_step bTwo [0, 0]
      { total_count := 0, estimates := [1, 1], coef := 1 } (1/2)).2.total_count = 1 :=
  (ucb_run_one_step_spec bTwo [0, 0]
    { total_count := 0, estimates := [1, 1], coef := 1 } (1/2) (by decide)).1

theorem ucb_score_antitone_in_count_witness :
    UCB.score 1 1 0 1 ≤ UCB.score 1 1 0 0 :=
  ucb_score_antitone_in_count 1 0 1 zero_le_one (le_refl 1) 0 1 Nat.zero_lt_one

theorem k_one_all_policies_zero_regret_witness :
    (Solver.run EpsilonGreedy.run_one_step
      (Solver.mkInit bOne (EpsilonGreedy.mkInit bOne (1/100) 1))
      [{ e := 0, j := 0, u := 1/2 }]).regret = 0 :=
  ((k_one_all_policies_zero_regret bOne (1/2) rfl rfl rfl (1/100) 1 1
    [{ e := 0, j := 0, u := 1/2 }] [{ e := 0, j := 0, u := 1/2 }] [1/2]
    (by decide) (by decide)).1).1

theorem estimates_remain_in_unit_interval_witness :
    0 ≤ (sharedUpdateRun 1 1 [(0, 0)]).1.getD 0 0 ∧
    (sharedUpdateRun 1 1 [(0, 0)]).1.getD 0 0 ≤ 1 :=
  estimates_remain_in_unit_interval 1 1 (by norm_num) (le_refl 1) [(0, 0)]
    (by decide) 0 (by decide)
